import Mathlib

namespace DMC

/-! Shallow embedding of the normalization and aggregation pipeline of
src/app.py (Streamlit dashboard for DMC weather alerts).  The character
level functions model the Python string operations over the alphabet that
is relevant to the feed: ASCII plus the Spanish accented letters. -/

/-- Python whitespace (the ASCII part of the regex class for spaces and of
str.strip), as used by app.py. -/
def isSpacePy (c : Char) : Bool :=
  c == ' ' || c == '\t' || c == '\n' || c == '\r' || c == '\x0b' || c == '\x0c'

/-- Uppercase/lowercase pairs of the modelled alphabet (ASCII letters plus
the accented letters appearing in Spanish feed text). -/
def caseTable : List (Char × Char) :=
  [('A','a'),('B','b'),('C','c'),('D','d'),('E','e'),('F','f'),('G','g'),
   ('H','h'),('I','i'),('J','j'),('K','k'),('L','l'),('M','m'),('N','n'),
   ('O','o'),('P','p'),('Q','q'),('R','r'),('S','s'),('T','t'),('U','u'),
   ('V','v'),('W','w'),('X','x'),('Y','y'),('Z','z'),
   ('Á','á'),('É','é'),('Í','í'),('Ó','ó'),('Ú','ú'),('Ñ','ñ'),('Ü','ü')]

/-- Model of Python str.lower on one character. -/
def pyToLower (c : Char) : Char := (caseTable.lookup c).getD c

def upperTable : List (Char × Char) := caseTable.map (fun p => (p.2, p.1))

/-- Model of Python str.upper (and title-casing of a single char). -/
def pyToUpper (c : Char) : Char := (upperTable.lookup c).getD c

/-- Cased characters of the modelled alphabet (drives str.title). -/
def isCasedPy (c : Char) : Bool := caseTable.any (fun p => p.1 == c || p.2 == c)

/-- Model of Python str.title (app.py line 143): a cased character is
uppercased after a non-cased character and lowercased otherwise. -/
def pyTitleAux : Bool → List Char → List Char
  | _, [] => []
  | prev, c :: rest =>
    (if isCasedPy c then (if prev then pyToLower c else pyToUpper c) else c)
      :: pyTitleAux (isCasedPy c) rest

def pyTitleL (l : List Char) : List Char := pyTitleAux false l

def pyTitle (s : String) : String := String.mk (pyTitleL s.data)

def pyToLowerStr (s : String) : String := String.mk (s.data.map pyToLower)

/-- Accented letter to its base letter, modelling _strip_accents of app.py
(NFD decomposition then dropping combining marks) on the feed alphabet. -/
def accentTable : List (Char × Char) :=
  [('á','a'),('é','e'),('í','i'),('ó','o'),('ú','u'),('ñ','n'),('ü','u'),
   ('Á','A'),('É','E'),('Í','I'),('Ó','O'),('Ú','U'),('Ñ','N'),('Ü','U')]

def stripAccent (c : Char) : Char := (accentTable.lookup c).getD c

def stripAccentsL (l : List Char) : List Char := l.map stripAccent

/-- The regex word class (ASCII alphanumerics, underscore, plus the accented
letters of the modelled alphabet); used for the ignored weekday token. -/
def isWordCharPy (c : Char) : Bool := c.isAlphanum || c == '_' || isCasedPy c

/-- The month-name character class of EMISION_PATTERN in app.py:
ASCII letters, accented vowels in both cases, and enye in both cases. -/
def isMonthLetter (c : Char) : Bool :=
  c.isAlpha || (['Á','É','Í','Ó','Ú','á','é','í','ó','ú','ñ','Ñ'].contains c)

/-- Auxiliary scanner for replaceAll: when the skip counter is positive the
character belongs to a replaced occurrence and is dropped. -/
def replAux (p : List Char) : List Char → Nat → List Char
  | [], _ => []
  | _ :: rest, Nat.succ n => replAux p rest n
  | c :: rest, 0 =>
    if p.isPrefixOf (c :: rest) then replAux p rest (p.length - 1)
    else c :: replAux p rest 0

/-- Model of Python str.replace(pat, empty): remove all non-overlapping
occurrences of pat, scanning left to right. -/
def replaceAll (p : List Char) (s : List Char) : List Char :=
  if p.isEmpty then s else replAux p s 0

/-- Model of Python str.strip(). -/
def stripPy (l : List Char) : List Char :=
  ((l.dropWhile isSpacePy).reverse.dropWhile isSpacePy).reverse

def digitVal (c : Char) : Nat := c.toNat - 48

/-- Decimal value of a digit string (int() of a regex group). -/
def strVal (l : List Char) : Nat := l.foldl (fun a c => 10 * a + digitVal c) 0

/-- Captured groups of EMISION_PATTERN: day, month name, year, hour, minute. -/
structure EmGroups where
  day : Nat
  mes : List Char
  year : Nat
  hour : Nat
  minute : Nat
deriving DecidableEq

/-- One-or-more whitespace, maximal munch (faithful for this pattern since
every following token starts with a non-space character). -/
def expectSpaces1 (cs : List Char) : Option (List Char) :=
  match cs with
  | [] => none
  | c :: rest => if isSpacePy c then some (rest.dropWhile isSpacePy) else none

/-- Case-insensitive literal (the pattern is compiled with IGNORECASE). -/
def expectLitCI : List Char → List Char → Option (List Char)
  | [], cs => some cs
  | _ :: _, [] => none
  | l :: ls, c :: rest => if pyToLower c = l then expectLitCI ls rest else none

/-- Minute group: a colon then exactly two digits; anything after the two
minute digits is outside the (prefix) match and is ignored. -/
def matchMin2 (h : Nat) (cs : List Char) : Option (Nat × Nat) :=
  match cs with
  | ':' :: m1 :: m2 :: _ =>
    if m1.isDigit && m2.isDigit then some (h, 10 * digitVal m1 + digitVal m2)
    else none
  | _ => none

/-- Hour:minute tail of the pattern.  A greedy two-digit hour is attempted
first; if the second character is a digit, the one-digit fallback would
require a colon at a digit position and can never succeed, matching the
regex backtracking behaviour. -/
def matchTime (cs : List Char) : Option (Nat × Nat) :=
  match cs with
  | [] => none
  | c1 :: rest1 =>
    if c1.isDigit then
      match rest1 with
      | [] => none
      | c2 :: rest2 =>
        if c2.isDigit then matchMin2 (10 * digitVal c1 + digitVal c2) rest2
        else matchMin2 (digitVal c1) rest1
    else none

/-- After the year: spaces, the connective a las, spaces, then the time. -/
def matchTail (d : Nat) (mes : List Char) (y : Nat) (cs : List Char) :
    Option EmGroups :=
  (expectSpaces1 cs).bind fun cs1 =>
  (expectLitCI ['a'] cs1).bind fun cs2 =>
  (expectSpaces1 cs2).bind fun cs3 =>
  (expectLitCI ['l','a','s'] cs3).bind fun cs4 =>
  (expectSpaces1 cs4).bind fun cs5 =>
  (matchTime cs5).map fun t => ⟨d, mes, y, t.1, t.2⟩

/-- Exactly four year digits. -/
def matchFromYear (d : Nat) (mes : List Char) (cs : List Char) :
    Option EmGroups :=
  match cs with
  | y1 :: y2 :: y3 :: y4 :: rest =>
    if y1.isDigit && y2.isDigit && y3.isDigit && y4.isDigit then
      matchTail d mes (strVal [y1, y2, y3, y4]) rest
    else none
  | _ => none

/-- Month name (maximal run of month letters), then spaces, del, spaces. -/
def matchFromMes (d : Nat) (cs : List Char) : Option EmGroups :=
  let mes := cs.takeWhile isMonthLetter
  if mes.isEmpty then none
  else
    (expectSpaces1 (cs.dropWhile isMonthLetter)).bind fun cs1 =>
    (expectLitCI ['d','e','l'] cs1).bind fun cs2 =>
    (expectSpaces1 cs2).bind fun cs3 =>
    matchFromYear d mes cs3

/-- After the day digits: spaces, de, spaces, then the month. -/
def afterDay (d : Nat) (cs : List Char) : Option EmGroups :=
  (expectSpaces1 cs).bind fun cs1 =>
  (expectLitCI ['d','e'] cs1).bind fun cs2 =>
  (expectSpaces1 cs2).bind fun cs3 =>
  matchFromMes d cs3

/-- Day group (one or two digits, greedy with regex-faithful fallback). -/
def matchDay (cs : List Char) : Option EmGroups :=
  match cs with
  | [] => none
  | c1 :: rest1 =>
    if c1.isDigit then
      match rest1 with
      | c2 :: rest2 =>
        if c2.isDigit then
          match afterDay (10 * digitVal c1 + digitVal c2) rest2 with
          | some g => some g
          | none => afterDay (digitVal c1) rest1
        else afterDay (digitVal c1) rest1
      | [] => none
    else none

/-- Model of EMISION_PATTERN.match (app.py lines 71 to 79): anchored prefix
match of weekday, day, de, month, del, year, a las, hour:minute. -/
def EMISION_PATTERN_match (cs : List Char) : Option EmGroups :=
  let cs0 := cs.dropWhile isSpacePy
  let wd := cs0.takeWhile isWordCharPy
  if wd.isEmpty then none
  else (expectSpaces1 (cs0.dropWhile isWordCharPy)).bind matchDay

/-- The fixed Spanish month table of app.py lines 53 to 67. -/
def MONTHS_ES : List (String × Nat) :=
  [("enero", 1), ("febrero", 2), ("marzo", 3), ("abril", 4), ("mayo", 5),
   ("junio", 6), ("julio", 7), ("agosto", 8), ("septiembre", 9),
   ("setiembre", 9), ("octubre", 10), ("noviembre", 11), ("diciembre", 12)]

/-- A Python datetime value (naive, minute precision, as built in app.py). -/
structure PyDateTime where
  year : Nat
  month : Nat
  day : Nat
  hour : Nat
  minute : Nat
deriving DecidableEq

def isLeapYear (y : Nat) : Bool :=
  y % 4 == 0 && (y % 100 != 0 || y % 400 == 0)

def daysInMonth (y m : Nat) : Nat :=
  if m == 2 then (if isLeapYear y then 29 else 28)
  else if m == 4 || m == 6 || m == 9 || m == 11 then 30
  else 31

/-- The success condition of the datetime constructor: datetime(y, mo, d,
h, mi) raises unless these bounds hold. -/
def validDateTime (dt : PyDateTime) : Bool :=
  1 ≤ dt.year && dt.year ≤ 9999 && 1 ≤ dt.month && dt.month ≤ 12 &&
  1 ≤ dt.day && dt.day ≤ daysInMonth dt.year dt.month &&
  dt.hour ≤ 23 && dt.minute ≤ 59

/-- Model of parse_emision_text (app.py lines 81 to 105) on string input:
remove the unit marker hrs (with optional dot), strip, match the pattern,
normalize the month name (lower-case then strip accents), look it up, and
build the datetime; every failure yields the NaT sentinel, modelled none. -/
def parse_emision_text (s : String) : Option PyDateTime :=
  let t := stripPy (replaceAll ['h','r','s'] (replaceAll ['h','r','s','.'] s.data))
  match EMISION_PATTERN_match t with
  | none => none
  | some g =>
    match MONTHS_ES.lookup (String.mk (stripAccentsL (g.mes.map pyToLower))) with
    | none => none
    | some mo =>
      if validDateTime ⟨g.year, mo, g.day, g.hour, g.minute⟩ then
        some ⟨g.year, mo, g.day, g.hour, g.minute⟩
      else none

/-- drop_duplicates keeping the first occurrence, as pandas does. -/
def dedupFirst {α : Type} [DecidableEq α] : List α → List α
  | [] => []
  | a :: l => a :: (dedupFirst l).filter (fun b => b ≠ a)

/-- A normalized row of the GeoDataFrame after app.py lines 139 to 143:
tipo is already title-cased (missing severity has become the string Nan via
astype(str)), emision is already parsed (none models NaT), reg may be
missing, orden is the displayOrder column. -/
structure NRow where
  codigo : String
  tipo : String
  reg : Option String
  orden : Int
  emision : Option PyDateTime
deriving DecidableEq

/-- Severity normalization of app.py line 143 applied to a raw value:
astype(str) renders a missing value as the string nan, then str.title. -/
def normTipo (t : Option String) : String :=
  pyTitle (match t with | some s => s | none => "nan")

/-- The classification induced by the three equality tests of app.py
lines 334 to 336: a normalized severity either matches one of the three
buckets or falls outside all of them. -/
inductive Severity
  | aviso
  | alerta
  | alarma
  | unknown
deriving DecidableEq

def classifySev (t : String) : Severity :=
  if t = "Aviso" then .aviso
  else if t = "Alerta" then .alerta
  else if t = "Alarma" then .alarma
  else .unknown

/-- app.py line 333: distinct (codigo, tipo) pairs of the filtered rows. -/
def eventos_nacionales (rows : List NRow) : List (String × String) :=
  dedupFirst (rows.map fun r => (r.codigo, r.tipo))

/-- app.py lines 334 to 336: rows of eventos_nacionales whose tipo equals
the given severity. -/
def count_sev (rows : List NRow) (x : String) : Nat :=
  ((eventos_nacionales rows).filter (fun p => p.2 = x)).length

/-- A Python date (the .dt.date projection used by the range filter). -/
structure PyDate where
  year : Nat
  month : Nat
  day : Nat
deriving DecidableEq

def dateOf (dt : PyDateTime) : PyDate := ⟨dt.year, dt.month, dt.day⟩

/-- datetime.date comparison (lexicographic on year, month, day). -/
def dateLe (a b : PyDate) : Bool :=
  if a.year ≠ b.year then a.year < b.year
  else if a.month ≠ b.month then a.month < b.month
  else a.day ≤ b.day

/-- Strict datetime comparison (lexicographic), as pandas compares
timestamps; used by idxmax. -/
def dtLtB (a b : PyDateTime) : Bool :=
  if a.year ≠ b.year then a.year < b.year
  else if a.month ≠ b.month then a.month < b.month
  else if a.day ≠ b.day then a.day < b.day
  else if a.hour ≠ b.hour then a.hour < b.hour
  else a.minute < b.minute

def dtLeB (a b : PyDateTime) : Bool := !(dtLtB b a)

/-- app.py lines 204 to 213: when a two-ended range is active keep rows
whose date part of emision lies in the range; a NaT emision compares false
on both ends and is dropped.  With no active range the rows pass through. -/
def dateRangeFilter (rows : List NRow) (rng : Option (PyDate × PyDate)) :
    List NRow :=
  match rng with
  | none => rows
  | some (d1, d2) =>
    rows.filter fun r =>
      match r.emision with
      | none => false
      | some dt => dateLe d1 (dateOf dt) && dateLe (dateOf dt) d2

/-- The sidebar filter state: selected severities (an empty list applies no
filter, matching the truthiness test of line 198), an optional region
(none models Todas), and an optional date range. -/
structure FilterSpec where
  tipos : List String
  region : Option String
  rango : Option (PyDate × PyDate)

/-- The region column rendered as str for the comparison of line 202. -/
def regAsStr (r : NRow) : String :=
  match r.reg with | some g => g | none => "nan"

/-- app.py lines 196 to 213: the three sidebar filters in order. -/
def applyFilters (rows : List NRow) (fs : FilterSpec) : List NRow :=
  let r1 := if fs.tipos.isEmpty then rows
            else rows.filter (fun r => fs.tipos.contains r.tipo)
  let r2 := match fs.region with
            | none => r1
            | some g => r1.filter (fun r => regAsStr r = g)
  dateRangeFilter r2 fs.rango

/-- Ordering of region buckets by the orden field (sort_values of
app.py line 382). -/
def ordenRel : (String × Int × Nat) → (String × Int × Nat) → Prop :=
  fun a b => a.2.1 ≤ b.2.1

instance : DecidableRel ordenRel := fun _ _ => Int.decLe _ _

instance : IsTotal (String × Int × Nat) ordenRel :=
  ⟨fun a b => Int.le_total a.2.1 b.2.1⟩

instance : IsTrans (String × Int × Nat) ordenRel :=
  ⟨fun _ _ _ h1 h2 => le_trans h1 h2⟩

/-- app.py lines 374 to 383: project (reg, orden, codigo), drop rows with a
missing region, drop duplicate triples, group by (reg, orden) counting the
distinct codigo values, and sort by orden.  Group keys are taken in first
appearance order; the final sort is modelled as a stable insertion sort
(pandas uses an unstable quicksort, so the order among equal orden values
is unspecified there; every property proved below is tie independent). -/
def df_reg (rows : List NRow) : List (String × Int × Nat) :=
  let proj := rows.filterMap (fun r => r.reg.map (fun g => (g, r.orden, r.codigo)))
  let dd := dedupFirst proj
  let keys := dedupFirst (dd.map (fun t => (t.1, t.2.1)))
  let gs := keys.map (fun k =>
    (k.1, k.2,
      (dedupFirst ((dd.filter (fun t => t.1 = k.1 ∧ t.2.1 = k.2)).map
        (fun t => t.2.2))).length))
  List.insertionSort ordenRel gs

/-- Comparison step of idxmax: keep the best-so-far row b only when its
emission is strictly later than the current row's. -/
def idxPick (a : NRow) (dt : PyDateTime) (b : NRow) :
    Option PyDateTime → Option NRow
  | none => some a
  | some bdt => if dtLtB dt bdt then some b else some a

def idxStep (a : NRow) (dt : PyDateTime) : Option NRow → Option NRow
  | none => some a
  | some b => idxPick a dt b b.emision

def idxCons (a : NRow) (best : Option NRow) : Option PyDateTime → Option NRow
  | none => best
  | some dt => idxStep a dt best

/-- app.py lines 341 to 346: Series.idxmax over emision with NaT skipped,
keeping the first occurrence of the maximum; none when nothing parses
(the guard of line 341). -/
def idxLastRow : List NRow → Option NRow
  | [] => none
  | r :: rest => idxCons r (idxLastRow rest) r.emision

/-- The derived outputs of one dashboard pass: the three national KPI
counts and the region buckets come from the filtered view (lines 332 to
338 and 374 to 383), the most recent emission from the full set (line
341 passes gdf, not gdf_filtrado). -/
structure DashboardOut where
  countAviso : Nat
  countAlerta : Nat
  countAlarma : Nat
  ultima : Option NRow
  regiones : List (String × Int × Nat)

def dashboard (rows : List NRow) (fs : FilterSpec) : DashboardOut :=
  let filtered := applyFilters rows fs
  { countAviso := count_sev filtered "Aviso"
    countAlerta := count_sev filtered "Alerta"
    countAlarma := count_sev filtered "Alarma"
    ultima := idxLastRow rows
    regiones := df_reg filtered }

/-- Free-text emission string of the grammar weekday, day, de, month, del,
year, a las, hour colon minute (single spaces, as in the spec grammar). -/
def emisionCore (wd ds mn ys hs ms : List Char) : List Char :=
  wd ++ ' ' :: (ds ++ ' ' :: 'd' :: 'e' :: ' ' ::
    (mn ++ ' ' :: 'd' :: 'e' :: 'l' :: ' ' ::
      (ys ++ ' ' :: 'a' :: ' ' :: 'l' :: 'a' :: 's' :: ' ' ::
        (hs ++ ':' :: ms))))

/-! Helper lemmas: association-list lookups and the case model. -/

theorem lookup_mem {α β : Type} [BEq α] [LawfulBEq α] {l : List (α × β)} {c : α}
    {d : β} (h : l.lookup c = some d) : (c, d) ∈ l := by
  induction l with
  | nil => simp [List.lookup] at h
  | cons p t ih =>
    obtain ⟨k, v⟩ := p
    rw [List.lookup] at h
    split at h
    · rename_i heq
      cases h
      have : c = k := by simpa using heq
      subst this
      exact List.mem_cons_self _ _
    · exact List.mem_cons_of_mem _ (ih h)

theorem lookup_eq_none {α β : Type} [BEq α] [LawfulBEq α] {l : List (α × β)}
    {c : α} (h : ∀ p ∈ l, p.1 ≠ c) : l.lookup c = none := by
  induction l with
  | nil => rfl
  | cons p t ih =>
    obtain ⟨k, v⟩ := p
    rw [List.lookup]
    have hk : (c == k) = false := by
      simp only [beq_eq_false_iff_ne, ne_eq]
      intro e
      exact h (k, v) (List.mem_cons_self _ _) e.symm
    simp only [hk]
    exact ih fun p hp => h p (List.mem_cons_of_mem _ hp)

theorem caseTable_fact : ∀ p ∈ caseTable,
    pyToLower p.1 = p.2 ∧ pyToLower p.2 = p.2 ∧ pyToUpper p.2 = p.1 ∧
    pyToUpper p.1 = p.1 ∧ isCasedPy p.1 = true ∧ isCasedPy p.2 = true := by
  decide

theorem pyToLower_pyToLower (c : Char) : pyToLower (pyToLower c) = pyToLower c := by
  cases hl : caseTable.lookup c with
  | none => simp [pyToLower, hl]
  | some d =>
    have h1 : pyToLower c = d := by simp [pyToLower, hl]
    rw [h1]
    exact (caseTable_fact _ (lookup_mem hl)).2.1

theorem pyToUpper_pyToLower (c : Char) : pyToUpper (pyToLower c) = pyToUpper c := by
  cases hl : caseTable.lookup c with
  | none =>
    have h1 : pyToLower c = c := by simp [pyToLower, hl]
    rw [h1]
  | some d =>
    have h1 : pyToLower c = d := by simp [pyToLower, hl]
    have hf := caseTable_fact _ (lookup_mem hl)
    rw [h1, hf.2.2.1, hf.2.2.2.1]

theorem isCasedPy_pyToLower (c : Char) : isCasedPy (pyToLower c) = isCasedPy c := by
  cases hl : caseTable.lookup c with
  | none =>
    have h1 : pyToLower c = c := by simp [pyToLower, hl]
    rw [h1]
  | some d =>
    have h1 : pyToLower c = d := by simp [pyToLower, hl]
    have hf := caseTable_fact _ (lookup_mem hl)
    rw [h1, hf.2.2.2.2.2, hf.2.2.2.2.1]

theorem pyToLower_pyToUpper (c : Char) : pyToLower (pyToUpper c) = pyToLower c := by
  cases hu : upperTable.lookup c with
  | none =>
    have h1 : pyToUpper c = c := by simp [pyToUpper, hu]
    rw [h1]
  | some u =>
    have h1 : pyToUpper c = u := by simp [pyToUpper, hu]
    have hmem : (c, u) ∈ upperTable := lookup_mem hu
    have hmem2 : (u, c) ∈ caseTable := by
      simp only [upperTable, List.mem_map] at hmem
      obtain ⟨p, hp, he⟩ := hmem
      obtain ⟨rfl, rfl⟩ : p.2 = c ∧ p.1 = u := by
        constructor <;> [exact congrArg Prod.fst he; exact congrArg Prod.snd he]
      simpa using hp
    have hf := caseTable_fact _ hmem2
    rw [h1, hf.1, hf.2.1]

theorem pyToLower_of_not_cased {c : Char} (h : isCasedPy c = false) :
    pyToLower c = c := by
  have : caseTable.lookup c = none := by
    apply lookup_eq_none
    intro p hp he
    have : isCasedPy c = true := by
      simp only [isCasedPy, List.any_eq_true]
      exact ⟨p, hp, by simp [he]⟩
    rw [this] at h
    cases h
  simp [pyToLower, this]

/-- str.title depends on a string only through its lower-cased form. -/
theorem pyTitleAux_congr (b : Bool) :
    ∀ l t : List Char, l.map pyToLower = t.map pyToLower →
      pyTitleAux b l = pyTitleAux b t := by
  intro l
  induction l generalizing b with
  | nil =>
    intro t h
    cases t with
    | nil => rfl
    | cons a2 t => simp at h
  | cons a l ih =>
    intro t h
    cases t with
    | nil => simp at h
    | cons a2 t =>
      simp only [List.map_cons, List.cons.injEq] at h
      obtain ⟨hhead, htail⟩ := h
      have hcase : isCasedPy a = isCasedPy a2 := by
        rw [← isCasedPy_pyToLower a, ← isCasedPy_pyToLower a2, hhead]
      simp only [pyTitleAux, hcase]
      rw [ih _ _ htail]
      congr 1
      cases hc : isCasedPy a2 with
      | false =>
        simp only [Bool.false_eq_true, if_false]
        rw [← pyToLower_of_not_cased (hcase.trans hc),
            ← pyToLower_of_not_cased hc, hhead]
      | true =>
        simp only [hc, if_true]
        cases b with
        | false =>
          simp only [Bool.false_eq_true, if_false]
          rw [← pyToUpper_pyToLower a, ← pyToUpper_pyToLower a2, hhead]
        | true =>
          simp only [if_true]
          rw [← pyToLower_pyToLower a, ← pyToLower_pyToLower a2, hhead]

/-- Lower-casing after str.title gives the lower-cased original. -/
theorem map_pyToLower_pyTitleAux (b : Bool) (l : List Char) :
    (pyTitleAux b l).map pyToLower = l.map pyToLower := by
  induction l generalizing b with
  | nil => rfl
  | cons a l ih =>
    simp only [pyTitleAux, List.map_cons, ih]
    congr 1
    cases hc : isCasedPy a with
    | false => simp
    | true =>
      cases b with
      | false => simp [pyToLower_pyToUpper]
      | true => simp [pyToLower_pyToLower]

/-! Helper lemmas: dedupFirst. -/

theorem mem_dedupFirst {α : Type} [DecidableEq α] {a : α} :
    ∀ {l : List α}, a ∈ dedupFirst l ↔ a ∈ l := by
  intro l
  induction l with
  | nil => simp [dedupFirst]
  | cons b t ih =>
    simp only [dedupFirst, List.mem_cons, List.mem_filter, ih,
      decide_eq_true_eq]
    by_cases hab : a = b
    · simp [hab]
    · simp [hab]

theorem nodup_dedupFirst {α : Type} [DecidableEq α] :
    ∀ l : List α, (dedupFirst l).Nodup := by
  intro l
  induction l with
  | nil => simp [dedupFirst]
  | cons b t ih =>
    refine List.Nodup.cons ?_ (ih.filter _)
    intro hmem
    have := (List.mem_filter.mp hmem).2
    simp at this

theorem dedupFirst_toFinset {α : Type} [DecidableEq α] (l : List α) :
    (dedupFirst l).toFinset = l.toFinset := by
  ext a
  simp [List.mem_toFinset, mem_dedupFirst]

theorem dedupFirst_length {α : Type} [DecidableEq α] (l : List α) :
    (dedupFirst l).length = l.toFinset.card := by
  rw [← dedupFirst_toFinset, List.toFinset_card_of_nodup (nodup_dedupFirst l)]

/-! Helper lemmas: datetime comparison. -/

theorem dtLtB_iff (a b : PyDateTime) : dtLtB a b = true ↔
    (a.year < b.year ∨ (a.year = b.year ∧ (a.month < b.month ∨ (a.month = b.month ∧
      (a.day < b.day ∨ (a.day = b.day ∧ (a.hour < b.hour ∨
        (a.hour = b.hour ∧ a.minute < b.minute)))))))) := by
  simp only [dtLtB]
  split_ifs <;> simp_all <;> omega

theorem dtLtB_asymm {a b : PyDateTime} (h : dtLtB a b = true) :
    dtLtB b a = false := by
  cases hb : dtLtB b a
  · rfl
  · have h1 := (dtLtB_iff a b).mp h
    have h2 := (dtLtB_iff b a).mp hb
    omega

theorem dtLeB_refl (a : PyDateTime) : dtLeB a a = true := by
  have : dtLtB a a = false := by
    cases hb : dtLtB a a
    · rfl
    · have := (dtLtB_iff a a).mp hb
      omega
  simp [dtLeB, this]

theorem dtLeB_of_dtLtB {a b : PyDateTime} (h : dtLtB a b = true) :
    dtLeB a b = true := by
  simp [dtLeB, dtLtB_asymm h]

theorem dtLeB_of_not_dtLtB {a b : PyDateTime} (h : dtLtB a b = false) :
    dtLeB b a = true := by
  simp [dtLeB, h]

theorem dtLeB_trans {a b c : PyDateTime} (h1 : dtLeB a b = true)
    (h2 : dtLeB b c = true) : dtLeB a c = true := by
  simp only [dtLeB, Bool.not_eq_true'] at h1 h2 ⊢
  cases hb : dtLtB c a
  · rfl
  · exfalso
    have p3 := (dtLtB_iff c a).mp hb
    have p1 : ¬ _ := fun hx => by rw [(dtLtB_iff b a).mpr hx] at h1; cases h1
    have p2 : ¬ _ := fun hx => by rw [(dtLtB_iff c b).mpr hx] at h2; cases h2
    omega

/-! Helper lemmas: character classes. -/

theorem space_chars {c : Char} (h : isSpacePy c = true) :
    c = ' ' ∨ c = '\t' ∨ c = '\n' ∨ c = '\r' ∨ c = '\x0b' ∨ c = '\x0c' := by
  simp [isSpacePy] at h
  tauto

theorem not_space_of_digit {c : Char} (h : c.isDigit = true) :
    isSpacePy c = false := by
  cases hs : isSpacePy c
  · rfl
  · rcases space_chars hs with rfl | rfl | rfl | rfl | rfl | rfl <;>
      exact absurd h (by decide)

theorem not_space_of_word {c : Char} (h : isWordCharPy c = true) :
    isSpacePy c = false := by
  cases hs : isSpacePy c
  · rfl
  · rcases space_chars hs with rfl | rfl | rfl | rfl | rfl | rfl <;>
      exact absurd h (by decide)

theorem not_space_of_month {c : Char} (h : isMonthLetter c = true) :
    isSpacePy c = false := by
  cases hs : isSpacePy c
  · rfl
  · rcases space_chars hs with rfl | rfl | rfl | rfl | rfl | rfl <;>
      exact absurd h (by decide)

theorem digit_ne_h {c : Char} (h : c.isDigit = true) : c ≠ 'h' := by
  intro e
  subst e
  exact absurd h (by decide)

/-! Helper lemmas: scanning over list append. -/

theorem takeWhile_append_all {p : Char → Bool} {xs : List Char} {c : Char}
    (ys : List Char) (hxs : ∀ a ∈ xs, p a = true) (hc : p c = false) :
    (xs ++ c :: ys).takeWhile p = xs := by
  induction xs with
  | nil => simp [List.takeWhile, hc]
  | cons a t ih =>
    have ha : p a = true := hxs a (List.mem_cons_self _ _)
    simp only [List.cons_append, List.takeWhile, ha, List.append_eq]
    rw [ih (fun b hb => hxs b (List.mem_cons_of_mem _ hb))]

theorem dropWhile_append_all {p : Char → Bool} {xs : List Char} {c : Char}
    (ys : List Char) (hxs : ∀ a ∈ xs, p a = true) (hc : p c = false) :
    (xs ++ c :: ys).dropWhile p = c :: ys := by
  induction xs with
  | nil => simp [List.dropWhile, hc]
  | cons a t ih =>
    have ha : p a = true := hxs a (List.mem_cons_self _ _)
    simp only [List.cons_append, List.dropWhile, ha, List.append_eq]
    rw [ih (fun b hb => hxs b (List.mem_cons_of_mem _ hb))]

theorem dropWhile_cons_neg {p : Char → Bool} {c : Char} (l : List Char)
    (hc : p c = false) : (c :: l).dropWhile p = c :: l := by
  simp [List.dropWhile, hc]

theorem dropWhile_append_split (p : Char → Bool) (xs ys : List Char) :
    (xs ++ ys).dropWhile p =
      if (xs.dropWhile p).isEmpty then ys.dropWhile p
      else xs.dropWhile p ++ ys := by
  induction xs with
  | nil => simp
  | cons a t ih =>
    cases ha : p a with
    | true => simp [List.dropWhile, ha, ih]
    | false => simp [List.dropWhile, ha]

/-! Helper lemmas: replace and strip. -/

theorem isPrefixOf_cons_false {pt : List Char} {a : Char} (rest : List Char)
    (ha : a ≠ 'h') : (('h' :: pt).isPrefixOf (a :: rest)) = false := by
  have hb : ('h' == a) = false := beq_eq_false_iff_ne.mpr (fun e => ha e.symm)
  simp [List.isPrefixOf, hb]

theorem replAux_append {pt : List Char} :
    ∀ (xs ys : List Char), (∀ c ∈ xs, c ≠ 'h') →
      replAux ('h' :: pt) (xs ++ ys) 0 = xs ++ replAux ('h' :: pt) ys 0 := by
  intro xs
  induction xs with
  | nil => simp
  | cons a t ih =>
    intro ys hall
    have ha : a ≠ 'h' := hall a (List.mem_cons_self _ _)
    rw [List.cons_append]
    simp only [replAux, isPrefixOf_cons_false _ ha]
    simp only [Bool.false_eq_true, if_false]
    rw [ih ys (fun c hc => hall c (List.mem_cons_of_mem _ hc)), List.cons_append]

theorem replaceAll_append {pt : List Char} (xs ys : List Char)
    (hall : ∀ c ∈ xs, c ≠ 'h') :
    replaceAll ('h' :: pt) (xs ++ ys) = xs ++ replaceAll ('h' :: pt) ys := by
  simp only [replaceAll, List.isEmpty_cons]
  simp only [Bool.false_eq_true, if_false]
  exact replAux_append xs ys hall

theorem stripPy_core (w : Char) (mid : List Char) (z : Char) (t : List Char)
    (hw : isSpacePy w = false) (hz : isSpacePy z = false) :
    ∃ t2, stripPy (((w :: mid) ++ [z]) ++ t) = ((w :: mid) ++ [z]) ++ t2 := by
  unfold stripPy
  have h1 : (((w :: mid) ++ [z]) ++ t).dropWhile isSpacePy =
      ((w :: mid) ++ [z]) ++ t := by
    have hshape : ((w :: mid) ++ [z]) ++ t = w :: (mid ++ [z] ++ t) := by simp
    rw [hshape, dropWhile_cons_neg _ hw, ← hshape]
  rw [h1]
  have hrev : (((w :: mid) ++ [z]) ++ t).reverse =
      t.reverse ++ (z :: (w :: mid).reverse) := by simp
  rw [hrev, dropWhile_append_split]
  cases he : (t.reverse.dropWhile isSpacePy).isEmpty with
  | true =>
    refine ⟨[], ?_⟩
    rw [if_pos rfl, dropWhile_cons_neg _ hz]
    simp
  | false =>
    refine ⟨(t.reverse.dropWhile isSpacePy).reverse, ?_⟩
    rw [if_neg Bool.false_ne_true]
    simp

/-! Helper lemmas: evaluating the pattern matcher on grammar strings. -/

theorem expectSpaces1_space (xs : List Char) :
    expectSpaces1 (' ' :: xs) = some (xs.dropWhile isSpacePy) := rfl

theorem matchTime_core {hs ms : List Char} (tail : List Char)
    (hdig : ∀ c ∈ hs, c.isDigit = true) (hlen : hs.length = 1 ∨ hs.length = 2)
    (mdig : ∀ c ∈ ms, c.isDigit = true) (mlen : ms.length = 2) :
    matchTime (hs ++ ':' :: (ms ++ tail)) = some (strVal hs, strVal ms) := by
  obtain ⟨m1, m2, rfl⟩ : ∃ m1 m2, ms = [m1, m2] := by
    match ms, mlen with
    | [m1, m2], _ => exact ⟨m1, m2, rfl⟩
  have hm1 := mdig m1 (by simp)
  have hm2 := mdig m2 (by simp)
  rcases hlen with h1 | h2
  · obtain ⟨c1, rfl⟩ : ∃ c1, hs = [c1] := by
      match hs, h1 with
      | [c1], _ => exact ⟨c1, rfl⟩
    have hc1 := hdig c1 (by simp)
    simp only [List.cons_append, List.nil_append]
    simp only [matchTime, hc1, if_true]
    simp only [show (':' : Char).isDigit = false from rfl]
    simp only [Bool.false_eq_true, if_false]
    simp only [matchMin2, hm1, hm2, Bool.and_self, if_true]
    simp only [strVal, List.foldl, Option.some.injEq, Prod.mk.injEq]
    omega
  · obtain ⟨c1, c2, rfl⟩ : ∃ c1 c2, hs = [c1, c2] := by
      match hs, h2 with
      | [c1, c2], _ => exact ⟨c1, c2, rfl⟩
    have hc1 := hdig c1 (by simp)
    have hc2 := hdig c2 (by simp)
    simp only [List.cons_append, List.nil_append]
    simp only [matchTime, hc1, hc2, if_true]
    simp only [matchMin2, hm1, hm2, Bool.and_self, if_true]
    simp only [strVal, List.foldl, Option.some.injEq, Prod.mk.injEq]
    omega

theorem expectLitCI_a (xs : List Char) :
    expectLitCI ['a'] ('a' :: xs) = some xs := rfl

theorem expectLitCI_las (xs : List Char) :
    expectLitCI ['l','a','s'] ('l' :: 'a' :: 's' :: xs) = some xs := rfl

theorem expectLitCI_de (xs : List Char) :
    expectLitCI ['d','e'] ('d' :: 'e' :: xs) = some xs := rfl

theorem expectLitCI_del (xs : List Char) :
    expectLitCI ['d','e','l'] ('d' :: 'e' :: 'l' :: xs) = some xs := rfl

theorem matchTail_core (d y : Nat) (mes : List Char) {hs ms : List Char}
    (tail : List Char)
    (hdig : ∀ c ∈ hs, c.isDigit = true) (hlen : hs.length = 1 ∨ hs.length = 2)
    (mdig : ∀ c ∈ ms, c.isDigit = true) (mlen : ms.length = 2) :
    matchTail d mes y
      (' ' :: 'a' :: ' ' :: 'l' :: 'a' :: 's' :: ' ' :: (hs ++ ':' :: (ms ++ tail)))
      = some ⟨d, mes, y, strVal hs, strVal ms⟩ := by
  obtain ⟨h0, hs2, rfl⟩ : ∃ h0 hs2, hs = h0 :: hs2 := by
    rcases hlen with h1 | h2
    · match hs, h1 with
      | [c1], _ => exact ⟨c1, [], rfl⟩
    · match hs, h2 with
      | [c1, c2], _ => exact ⟨c1, [c2], rfl⟩
  have hns : isSpacePy h0 = false := not_space_of_digit (hdig h0 (by simp))
  unfold matchTail
  rw [expectSpaces1_space, dropWhile_cons_neg _ (by decide : isSpacePy 'a' = false)]
  rw [Option.some_bind, expectLitCI_a, Option.some_bind]
  rw [expectSpaces1_space, dropWhile_cons_neg _ (by decide : isSpacePy 'l' = false)]
  rw [Option.some_bind, expectLitCI_las, Option.some_bind]
  rw [expectSpaces1_space, List.cons_append, dropWhile_cons_neg _ hns,
    ← List.cons_append, Option.some_bind]
  rw [matchTime_core tail hdig hlen mdig mlen]
  rfl

theorem matchFromYear_core (d : Nat) (mes : List Char) {ys hs ms : List Char}
    (tail : List Char)
    (ydig : ∀ c ∈ ys, c.isDigit = true) (ylen : ys.length = 4)
    (hdig : ∀ c ∈ hs, c.isDigit = true) (hlen : hs.length = 1 ∨ hs.length = 2)
    (mdig : ∀ c ∈ ms, c.isDigit = true) (mlen : ms.length = 2) :
    matchFromYear d mes
      (ys ++ ' ' :: 'a' :: ' ' :: 'l' :: 'a' :: 's' :: ' ' :: (hs ++ ':' :: (ms ++ tail)))
      = some ⟨d, mes, strVal ys, strVal hs, strVal ms⟩ := by
  obtain ⟨y1, y2, y3, y4, rfl⟩ : ∃ a b c e, ys = [a, b, c, e] := by
    match ys, ylen with
    | [a, b, c, e], _ => exact ⟨a, b, c, e, rfl⟩
  simp only [List.cons_append, List.nil_append]
  simp only [matchFromYear, ydig y1 (by simp), ydig y2 (by simp),
    ydig y3 (by simp), ydig y4 (by simp), Bool.and_self, if_true]
  exact matchTail_core d (strVal [y1, y2, y3, y4]) mes tail hdig hlen mdig mlen

theorem matchFromMes_core (d : Nat) {mn ys hs ms : List Char} (tail : List Char)
    (hmn : mn ≠ []) (hml : ∀ c ∈ mn, isMonthLetter c = true)
    (ydig : ∀ c ∈ ys, c.isDigit = true) (ylen : ys.length = 4)
    (hdig : ∀ c ∈ hs, c.isDigit = true) (hlen : hs.length = 1 ∨ hs.length = 2)
    (mdig : ∀ c ∈ ms, c.isDigit = true) (mlen : ms.length = 2) :
    matchFromMes d
      (mn ++ ' ' :: 'd' :: 'e' :: 'l' :: ' ' ::
        (ys ++ ' ' :: 'a' :: ' ' :: 'l' :: 'a' :: 's' :: ' ' :: (hs ++ ':' :: (ms ++ tail))))
      = some ⟨d, mn, strVal ys, strVal hs, strVal ms⟩ := by
  obtain ⟨m0, mn2, rfl⟩ : ∃ a t, mn = a :: t := by
    cases mn with
    | nil => exact absurd rfl hmn
    | cons a t => exact ⟨a, t, rfl⟩
  obtain ⟨y0, ys2, rfl⟩ : ∃ a t, ys = a :: t := by
    match ys, ylen with
    | [a, b, c, e], _ => exact ⟨a, [b, c, e], rfl⟩
  have hy0 : isSpacePy y0 = false := not_space_of_digit (ydig y0 (by simp))
  simp only [matchFromMes]
  rw [takeWhile_append_all _ hml (by decide : isMonthLetter ' ' = false)]
  rw [dropWhile_append_all _ hml (by decide : isMonthLetter ' ' = false)]
  simp only [List.isEmpty_cons, Bool.false_eq_true, if_false]
  rw [expectSpaces1_space, dropWhile_cons_neg _ (by decide : isSpacePy 'd' = false)]
  rw [Option.some_bind, expectLitCI_del, Option.some_bind]
  rw [expectSpaces1_space, List.cons_append, dropWhile_cons_neg _ hy0,
    ← List.cons_append, Option.some_bind]
  exact matchFromYear_core d (m0 :: mn2) tail ydig ylen hdig hlen mdig mlen

theorem afterDay_core (d : Nat) {mn ys hs ms : List Char} (tail : List Char)
    (hmn : mn ≠ []) (hml : ∀ c ∈ mn, isMonthLetter c = true)
    (ydig : ∀ c ∈ ys, c.isDigit = true) (ylen : ys.length = 4)
    (hdig : ∀ c ∈ hs, c.isDigit = true) (hlen : hs.length = 1 ∨ hs.length = 2)
    (mdig : ∀ c ∈ ms, c.isDigit = true) (mlen : ms.length = 2) :
    afterDay d
      (' ' :: 'd' :: 'e' :: ' ' ::
        (mn ++ ' ' :: 'd' :: 'e' :: 'l' :: ' ' ::
          (ys ++ ' ' :: 'a' :: ' ' :: 'l' :: 'a' :: 's' :: ' ' :: (hs ++ ':' :: (ms ++ tail)))))
      = some ⟨d, mn, strVal ys, strVal hs, strVal ms⟩ := by
  obtain ⟨m0, mn2, rfl⟩ : ∃ a t, mn = a :: t := by
    cases mn with
    | nil => exact absurd rfl hmn
    | cons a t => exact ⟨a, t, rfl⟩
  have hm0 : isSpacePy m0 = false := not_space_of_month (hml m0 (by simp))
  unfold afterDay
  rw [expectSpaces1_space, dropWhile_cons_neg _ (by decide : isSpacePy 'd' = false)]
  rw [Option.some_bind, expectLitCI_de, Option.some_bind]
  rw [expectSpaces1_space, List.cons_append, dropWhile_cons_neg _ hm0,
    ← List.cons_append, Option.some_bind]
  exact matchFromMes_core d tail hmn hml ydig ylen hdig hlen mdig mlen

theorem matchDay_core {ds mn ys hs ms : List Char} (tail : List Char)
    (ddig : ∀ c ∈ ds, c.isDigit = true) (dlen : ds.length = 1 ∨ ds.length = 2)
    (hmn : mn ≠ []) (hml : ∀ c ∈ mn, isMonthLetter c = true)
    (ydig : ∀ c ∈ ys, c.isDigit = true) (ylen : ys.length = 4)
    (hdig : ∀ c ∈ hs, c.isDigit = true) (hlen : hs.length = 1 ∨ hs.length = 2)
    (mdig : ∀ c ∈ ms, c.isDigit = true) (mlen : ms.length = 2) :
    matchDay
      (ds ++ ' ' :: 'd' :: 'e' :: ' ' ::
        (mn ++ ' ' :: 'd' :: 'e' :: 'l' :: ' ' ::
          (ys ++ ' ' :: 'a' :: ' ' :: 'l' :: 'a' :: 's' :: ' ' :: (hs ++ ':' :: (ms ++ tail)))))
      = some ⟨strVal ds, mn, strVal ys, strVal hs, strVal ms⟩ := by
  rcases dlen with h1 | h2
  · obtain ⟨c1, rfl⟩ : ∃ c1, ds = [c1] := by
      match ds, h1 with
      | [c1], _ => exact ⟨c1, rfl⟩
    simp only [List.cons_append, List.nil_append]
    simp only [matchDay, ddig c1 (by simp), if_true]
    simp only [show (' ' : Char).isDigit = false from rfl, Bool.false_eq_true, if_false]
    rw [afterDay_core (digitVal c1) tail hmn hml ydig ylen hdig hlen mdig mlen]
    simp only [Option.some.injEq, EmGroups.mk.injEq, strVal, List.foldl_cons,
      List.foldl_nil, and_true, true_and, eq_self_iff_true]
    omega
  · obtain ⟨c1, c2, rfl⟩ : ∃ c1 c2, ds = [c1, c2] := by
      match ds, h2 with
      | [c1, c2], _ => exact ⟨c1, c2, rfl⟩
    simp only [List.cons_append, List.nil_append]
    simp only [matchDay, ddig c1 (by simp), ddig c2 (by simp), if_true]
    rw [afterDay_core (10 * digitVal c1 + digitVal c2) tail hmn hml ydig ylen
      hdig hlen mdig mlen]
    simp only [Option.some.injEq, EmGroups.mk.injEq, strVal, List.foldl_cons,
      List.foldl_nil, and_true, true_and, eq_self_iff_true]
    omega

theorem EMISION_match_split {wd : List Char} (rest : List Char)
    (hwdne : wd ≠ []) (hwd : ∀ c ∈ wd, isWordCharPy c = true) :
    EMISION_PATTERN_match (wd ++ ' ' :: rest) =
      matchDay (rest.dropWhile isSpacePy) := by
  obtain ⟨w0, wd2, rfl⟩ : ∃ a t, wd = a :: t := by
    cases wd with
    | nil => exact absurd rfl hwdne
    | cons a t => exact ⟨a, t, rfl⟩
  have hw0 : isSpacePy w0 = false := not_space_of_word (hwd w0 (by simp))
  simp only [EMISION_PATTERN_match]
  rw [List.cons_append, dropWhile_cons_neg _ hw0, ← List.cons_append]
  rw [takeWhile_append_all _ hwd (by decide : isWordCharPy ' ' = false)]
  rw [dropWhile_append_all _ hwd (by decide : isWordCharPy ' ' = false)]
  simp only [List.isEmpty_cons, Bool.false_eq_true, if_false]
  rw [expectSpaces1_space, Option.some_bind]

theorem EMISION_match_core {wd ds mn ys hs ms : List Char} (tail : List Char)
    (hwdne : wd ≠ []) (hwd : ∀ c ∈ wd, isWordCharPy c = true)
    (ddig : ∀ c ∈ ds, c.isDigit = true) (dlen : ds.length = 1 ∨ ds.length = 2)
    (hmn : mn ≠ []) (hml : ∀ c ∈ mn, isMonthLetter c = true)
    (ydig : ∀ c ∈ ys, c.isDigit = true) (ylen : ys.length = 4)
    (hdig : ∀ c ∈ hs, c.isDigit = true) (hlen : hs.length = 1 ∨ hs.length = 2)
    (mdig : ∀ c ∈ ms, c.isDigit = true) (mlen : ms.length = 2) :
    EMISION_PATTERN_match (emisionCore wd ds mn ys hs ms ++ tail) =
      some ⟨strVal ds, mn, strVal ys, strVal hs, strVal ms⟩ := by
  obtain ⟨d0, ds2, rfl⟩ : ∃ a t, ds = a :: t := by
    rcases dlen with h1 | h2
    · match ds, h1 with
      | [c1], _ => exact ⟨c1, [], rfl⟩
    · match ds, h2 with
      | [c1, c2], _ => exact ⟨c1, [c2], rfl⟩
  have hd0 : isSpacePy d0 = false := not_space_of_digit (ddig d0 (by simp))
  rw [show emisionCore wd (d0 :: ds2) mn ys hs ms ++ tail =
      wd ++ ' ' :: ((d0 :: ds2) ++ ' ' :: 'd' :: 'e' :: ' ' ::
        (mn ++ ' ' :: 'd' :: 'e' :: 'l' :: ' ' ::
          (ys ++ ' ' :: 'a' :: ' ' :: 'l' :: 'a' :: 's' :: ' ' ::
            (hs ++ ':' :: (ms ++ tail)))))
      from by simp [emisionCore]]
  rw [EMISION_match_split _ hwdne hwd]
  rw [List.cons_append, dropWhile_cons_neg _ hd0, ← List.cons_append]
  exact matchDay_core tail ddig dlen hmn hml ydig ylen hdig hlen mdig mlen

theorem data_mk (l : List Char) : (String.mk l).data = l := rfl

/-- Main parser lemma: a grammar string with any trailing characters parses
to the datetime built from its digit groups and looked-up month. -/
theorem parse_emision_core {wd ds mn ys hs ms : List Char} (ext : List Char)
    (mo : Nat)
    (hwdne : wd ≠ []) (hwd : ∀ c ∈ wd, isWordCharPy c = true) (hwdh : 'h' ∉ wd)
    (ddig : ∀ c ∈ ds, c.isDigit = true) (dlen : ds.length = 1 ∨ ds.length = 2)
    (hmn : mn ≠ []) (hml : ∀ c ∈ mn, isMonthLetter c = true) (hmnh : 'h' ∉ mn)
    (ydig : ∀ c ∈ ys, c.isDigit = true) (ylen : ys.length = 4)
    (hdig : ∀ c ∈ hs, c.isDigit = true) (hlen : hs.length = 1 ∨ hs.length = 2)
    (mdig : ∀ c ∈ ms, c.isDigit = true) (mlen : ms.length = 2)
    (hmo : MONTHS_ES.lookup (String.mk (stripAccentsL (mn.map pyToLower))) = some mo)
    (hvalid : validDateTime ⟨strVal ys, mo, strVal ds, strVal hs, strVal ms⟩ = true) :
    parse_emision_text (String.mk (emisionCore wd ds mn ys hs ms ++ ext)) =
      some ⟨strVal ys, mo, strVal ds, strVal hs, strVal ms⟩ := by
  have hdsh : 'h' ∉ ds := fun hl => digit_ne_h (ddig _ hl) rfl
  have hysh : 'h' ∉ ys := fun hl => digit_ne_h (ydig _ hl) rfl
  have hhsh : 'h' ∉ hs := fun hl => digit_ne_h (hdig _ hl) rfl
  have hmsh : 'h' ∉ ms := fun hl => digit_ne_h (mdig _ hl) rfl
  have hcore : ∀ c ∈ emisionCore wd ds mn ys hs ms, c ≠ 'h' := by
    intro c hc he
    subst he
    simp only [emisionCore, List.mem_append, List.mem_cons] at hc
    rcases hc with h | h | h | h | h | h | h | h | h | h | h | h | h | h | h |
      h | h | h | h | h | h | h | h | h
    all_goals first
    | exact hwdh h
    | exact hmnh h
    | exact hdsh h
    | exact hysh h
    | exact hhsh h
    | exact hmsh h
    | exact absurd h (by decide)
  obtain ⟨w0, wd2, hwdeq⟩ : ∃ a t, wd = a :: t := by
    cases wd with
    | nil => exact absurd rfl hwdne
    | cons a t => exact ⟨a, t, rfl⟩
  obtain ⟨m1, m2, hmseq⟩ : ∃ m1 m2, ms = [m1, m2] := by
    match ms, mlen with
    | [m1, m2], _ => exact ⟨m1, m2, rfl⟩
  have hw0 : isSpacePy w0 = false :=
    not_space_of_word (hwd w0 (by rw [hwdeq]; simp))
  have hm2 : isSpacePy m2 = false :=
    not_space_of_digit (mdig m2 (by rw [hmseq]; simp))
  have hmid : emisionCore wd ds mn ys hs ms =
      (w0 :: (wd2 ++ ' ' :: (ds ++ ' ' :: 'd' :: 'e' :: ' ' ::
        (mn ++ ' ' :: 'd' :: 'e' :: 'l' :: ' ' ::
          (ys ++ ' ' :: 'a' :: ' ' :: 'l' :: 'a' :: 's' :: ' ' ::
            (hs ++ [':', m1])))))) ++ [m2] := by
    subst hwdeq hmseq
    simp [emisionCore]
  simp only [parse_emision_text, data_mk]
  rw [replaceAll_append _ _ hcore, replaceAll_append _ _ hcore]
  obtain ⟨t2, hstrip⟩ := stripPy_core w0
    (wd2 ++ ' ' :: (ds ++ ' ' :: 'd' :: 'e' :: ' ' ::
      (mn ++ ' ' :: 'd' :: 'e' :: 'l' :: ' ' ::
        (ys ++ ' ' :: 'a' :: ' ' :: 'l' :: 'a' :: 's' :: ' ' ::
          (hs ++ [':', m1])))))
    m2 (replaceAll ['h','r','s'] (replaceAll ['h','r','s','.'] ext)) hw0 hm2
  rw [hmid, hstrip, ← hmid]
  rw [EMISION_match_core t2 hwdne hwd ddig dlen hmn hml ydig ylen hdig hlen
    mdig mlen]
  simp [hmo, hvalid]

/-! Claim theorems. -/

/-- C1: every free-text emission string of the grammar weekday, day, de,
month, del, year, a las, H colon MM, with an optional trailing hrs marker,
parses to the timestamp built from (year, month, day, hour, minute); in
particular the two spec examples parse as stated and, after lower-casing
and diacritic removal, both septiembre and setiembre map to month 9.
The weekday and month tokens are taken without the letter h, which holds
for all Spanish weekday and month names. -/
theorem C1_free_text_grammar :
    (∀ wd ds mn ys hs ms suf : List Char, ∀ mo : Nat,
      wd ≠ [] → (∀ c ∈ wd, isWordCharPy c = true) → 'h' ∉ wd →
      (∀ c ∈ ds, c.isDigit = true) → (ds.length = 1 ∨ ds.length = 2) →
      mn ≠ [] → (∀ c ∈ mn, isMonthLetter c = true) → 'h' ∉ mn →
      (∀ c ∈ ys, c.isDigit = true) → ys.length = 4 →
      (∀ c ∈ hs, c.isDigit = true) → (hs.length = 1 ∨ hs.length = 2) →
      (∀ c ∈ ms, c.isDigit = true) → ms.length = 2 →
      MONTHS_ES.lookup (String.mk (stripAccentsL (mn.map pyToLower))) = some mo →
      validDateTime ⟨strVal ys, mo, strVal ds, strVal hs, strVal ms⟩ = true →
      (suf = [] ∨ suf = (' ' :: 'h' :: 'r' :: 's' :: []) ∨
        suf = (' ' :: 'h' :: 'r' :: 's' :: '.' :: [])) →
      parse_emision_text (String.mk (emisionCore wd ds mn ys hs ms ++ suf)) =
        some ⟨strVal ys, mo, strVal ds, strVal hs, strVal ms⟩)
    ∧ parse_emision_text "Viernes 28 de noviembre del 2025 a las 13:32 hrs." =
        some ⟨2025, 11, 28, 13, 32⟩
    ∧ parse_emision_text "lunes 5 de enero del 2024 a las 09:05" =
        some ⟨2024, 1, 5, 9, 5⟩
    ∧ MONTHS_ES.lookup (String.mk (stripAccentsL ("septiembre".data.map pyToLower))) =
        some 9
    ∧ MONTHS_ES.lookup (String.mk (stripAccentsL ("setiembre".data.map pyToLower))) =
        some 9 := by
  refine ⟨?_, by decide, by decide, by decide, by decide⟩
  intro wd ds mn ys hs ms suf mo h1 h2 h3 h4 h5 h6 h7 h8 h9 h10 h11 h12 h13
    h14 h15 h16 _
  exact parse_emision_core suf mo h1 h2 h3 h4 h5 h6 h7 h8 h9 h10 h11 h12 h13
    h14 h15 h16

/-- Witness for C1: the universal part applied to a concrete grammar
string, Sábado 29 de febrero del 2020 a las 7:45 hrs. -/
theorem C1_free_text_grammar_witness :
    parse_emision_text (String.mk (emisionCore "Sábado".data "29".data
        "febrero".data "2020".data "7".data "45".data ++
        (' ' :: 'h' :: 'r' :: 's' :: []))) = some ⟨2020, 2, 29, 7, 45⟩ := by
  have h := C1_free_text_grammar.1 "Sábado".data "29".data "febrero".data
    "2020".data "7".data "45".data (' ' :: 'h' :: 'r' :: 's' :: []) 2
    (by decide) (by decide) (by decide) (by decide) (by decide) (by decide)
    (by decide) (by decide) (by decide) (by decide) (by decide) (by decide)
    (by decide) (by decide) (by decide) (by decide) (by decide)
  exact h.trans (by decide)

/-- C2: the free-text parser is total with the none sentinel for every
failure: any successful parse satisfies the datetime validity bounds, and
a missing del literal, a missing a las connective (also when written de
las), an unknown month name, an invalid day of month, and an out-of-range
hour all yield the sentinel rather than an exception or a partial parse. -/
theorem C2_parse_total :
    (∀ (s : String) (dt : PyDateTime), parse_emision_text s = some dt →
        validDateTime dt = true)
    ∧ parse_emision_text "Viernes 28 de noviembre 2025 a las 13:32 hrs." = none
    ∧ parse_emision_text "Viernes 28 de noviembre del 2025 13:32 hrs." = none
    ∧ parse_emision_text "Viernes 28 de noviembre del 2025 de las 13:32 hrs." = none
    ∧ parse_emision_text "Viernes 28 de brumario del 2025 a las 13:32" = none
    ∧ parse_emision_text "Viernes 31 de noviembre del 2025 a las 13:32" = none
    ∧ parse_emision_text "Viernes 28 de noviembre del 2025 a las 25:30" = none := by
  refine ⟨?_, by decide, by decide, by decide, by decide, by decide, by decide⟩
  intro s dt h
  simp only [parse_emision_text] at h
  split at h
  · exact absurd h (by simp)
  · split at h
    · exact absurd h (by simp)
    · split at h
      · rename_i hv
        injection h with h2
        rw [← h2]
        exact hv
      · exact absurd h (by simp)

/-- Witness for C2: the validity conclusion instantiated at a concrete
successfully parsed string. -/
theorem C2_parse_total_witness :
    validDateTime ⟨2025, 11, 28, 13, 32⟩ = true :=
  C2_parse_total.1 "Viernes 28 de noviembre del 2025 a las 13:32 hrs."
    ⟨2025, 11, 28, 13, 32⟩ (by decide)

/-- C9: the parser only requires a prefix of the input to match: for any
grammar string, appending arbitrary characters after the two minute digits
still produces the same timestamp; in particular a third minute digit, as
in 13:325, does not cause a failure. -/
theorem C9_prefix_match :
    (∀ ext wd ds mn ys hs ms : List Char, ∀ mo : Nat,
      wd ≠ [] → (∀ c ∈ wd, isWordCharPy c = true) → 'h' ∉ wd →
      (∀ c ∈ ds, c.isDigit = true) → (ds.length = 1 ∨ ds.length = 2) →
      mn ≠ [] → (∀ c ∈ mn, isMonthLetter c = true) → 'h' ∉ mn →
      (∀ c ∈ ys, c.isDigit = true) → ys.length = 4 →
      (∀ c ∈ hs, c.isDigit = true) → (hs.length = 1 ∨ hs.length = 2) →
      (∀ c ∈ ms, c.isDigit = true) → ms.length = 2 →
      MONTHS_ES.lookup (String.mk (stripAccentsL (mn.map pyToLower))) = some mo →
      validDateTime ⟨strVal ys, mo, strVal ds, strVal hs, strVal ms⟩ = true →
      parse_emision_text (String.mk (emisionCore wd ds mn ys hs ms ++ ext)) =
        some ⟨strVal ys, mo, strVal ds, strVal hs, strVal ms⟩)
    ∧ parse_emision_text "Viernes 28 de noviembre del 2025 a las 13:325" =
        some ⟨2025, 11, 28, 13, 32⟩
    ∧ parse_emision_text
        "Viernes 28 de noviembre del 2025 a las 13:32 y un texto cualquiera 99" =
        some ⟨2025, 11, 28, 13, 32⟩ := by
  refine ⟨?_, by decide, by decide⟩
  intro ext wd ds mn ys hs ms mo h1 h2 h3 h4 h5 h6 h7 h8 h9 h10 h11 h12 h13
    h14 h15 h16
  exact parse_emision_core ext mo h1 h2 h3 h4 h5 h6 h7 h8 h9 h10 h11 h12 h13
    h14 h15 h16

/-- Witness for C9: the universal part applied to a concrete grammar
string with concrete trailing garbage. -/
theorem C9_prefix_match_witness :
    parse_emision_text (String.mk (emisionCore "lunes".data "5".data
        "enero".data "2024".data "09".data "05".data ++ "5 hrs extra".data)) =
      some ⟨2024, 1, 5, 9, 5⟩ := by
  have h := C9_prefix_match.1 "5 hrs extra".data "lunes".data "5".data
    "enero".data "2024".data "09".data "05".data 1
    (by decide) (by decide) (by decide) (by decide) (by decide) (by decide)
    (by decide) (by decide) (by decide) (by decide) (by decide) (by decide)
    (by decide) (by decide) (by decide) (by decide)
  exact h.trans (by decide)

theorem pyTitle_eq_of_lower_eq {s t : String}
    (h : pyToLowerStr s = pyToLowerStr t) : pyTitle s = pyTitle t := by
  have h2 : s.data.map pyToLower = t.data.map pyToLower := congrArg String.data h
  exact congrArg String.mk (pyTitleAux_congr false _ _ h2)

theorem pyToLowerStr_pyTitle (s : String) :
    pyToLowerStr (pyTitle s) = pyToLowerStr s := by
  simp only [pyToLowerStr, pyTitle, pyTitleL, data_mk]
  exact congrArg String.mk (map_pyToLower_pyTitleAux false s.data)

theorem normTipo_some (s : String) : normTipo (some s) = pyTitle s := rfl

/-- C5: title-casing maps every case variant of a recognized severity name
(same lower-cased form) to the same canonical value, and any value whose
lower-cased form is none of the three names classifies as unknown; the
normalization is a total function, so it cannot crash the pipeline. -/
theorem C5_severity_normalization :
    (∀ s : String, pyToLowerStr s = "aviso" → normTipo (some s) = "Aviso")
    ∧ (∀ s : String, pyToLowerStr s = "alerta" → normTipo (some s) = "Alerta")
    ∧ (∀ s : String, pyToLowerStr s = "alarma" → normTipo (some s) = "Alarma")
    ∧ (∀ s : String, pyToLowerStr s ≠ "aviso" → pyToLowerStr s ≠ "alerta" →
        pyToLowerStr s ≠ "alarma" →
        classifySev (normTipo (some s)) = Severity.unknown) := by
  have key : ∀ (s : String) (canon target : String),
      pyToLowerStr canon = canon → pyTitle canon = target →
      pyToLowerStr s = canon → normTipo (some s) = target := by
    intro s canon target hc ht h
    rw [normTipo_some, pyTitle_eq_of_lower_eq (t := canon) (h.trans hc.symm), ht]
  refine ⟨fun s h => key s "aviso" "Aviso" (by decide) (by decide) h,
    fun s h => key s "alerta" "Alerta" (by decide) (by decide) h,
    fun s h => key s "alarma" "Alarma" (by decide) (by decide) h, ?_⟩
  intro s h1 h2 h3
  have hback : ∀ target lowtarget : String, pyToLowerStr target = lowtarget →
      normTipo (some s) = target → pyToLowerStr s = lowtarget := by
    intro target lowtarget hlt he
    calc pyToLowerStr s = pyToLowerStr (pyTitle s) := (pyToLowerStr_pyTitle s).symm
      _ = pyToLowerStr target := by rw [← normTipo_some, he]
      _ = lowtarget := hlt
  have hne1 : normTipo (some s) ≠ "Aviso" :=
    fun he => h1 (hback "Aviso" "aviso" (by decide) he)
  have hne2 : normTipo (some s) ≠ "Alerta" :=
    fun he => h2 (hback "Alerta" "alerta" (by decide) he)
  have hne3 : normTipo (some s) ≠ "Alarma" :=
    fun he => h3 (hback "Alarma" "alarma" (by decide) he)
  simp [classifySev, hne1, hne2, hne3]

/-- Witness for C5: the three case variants of Alerta from the spec all
normalize to Alerta, and an unrecognized value classifies as unknown. -/
theorem C5_severity_normalization_witness :
    normTipo (some "ALERTA") = "Alerta" ∧ normTipo (some "alerta") = "Alerta" ∧
    normTipo (some "Alerta") = "Alerta" ∧
    classifySev (normTipo (some "Marejadas")) = Severity.unknown :=
  ⟨C5_severity_normalization.2.1 "ALERTA" (by decide),
   C5_severity_normalization.2.1 "alerta" (by decide),
   C5_severity_normalization.2.1 "Alerta" (by decide),
   C5_severity_normalization.2.2.2 "Marejadas" (by decide) (by decide)
     (by decide)⟩

/-! Helper lemmas: counting distinct pairs and codes. -/

theorem count_sev_card (rows : List NRow) (x : String) :
    count_sev rows x =
      ((rows.map fun r => (r.codigo, r.tipo)).toFinset.filter
        (fun p => p.2 = x)).card := by
  unfold count_sev eventos_nacionales
  rw [← List.toFinset_card_of_nodup ((nodup_dedupFirst _).filter _)]
  congr 1
  ext p
  simp [List.mem_toFinset, List.mem_filter, mem_dedupFirst,
    Finset.mem_filter, decide_eq_true_eq]

theorem distinct_codes_card (rows : List NRow) (x : String) :
    (dedupFirst ((rows.filter (fun r => r.tipo = x)).map
      (fun r => r.codigo))).length =
      ((rows.map fun r => (r.codigo, r.tipo)).toFinset.filter
        (fun p => p.2 = x)).card := by
  rw [dedupFirst_length]
  have himg : ((rows.map fun r => (r.codigo, r.tipo)).toFinset.filter
      (fun p => p.2 = x)) =
      (((rows.filter (fun r => r.tipo = x)).map
        (fun r => r.codigo)).toFinset).image (fun c => (c, x)) := by
    ext p
    obtain ⟨pc, pt⟩ := p
    simp only [List.mem_toFinset, Finset.mem_filter, Finset.mem_image,
      List.mem_map, List.mem_filter, decide_eq_true_eq]
    constructor
    · rintro ⟨⟨r, hr, he⟩, hx⟩
      obtain ⟨rfl, rfl⟩ : r.codigo = pc ∧ r.tipo = pt := by
        constructor
        · exact congrArg Prod.fst he
        · exact congrArg Prod.snd he
      exact ⟨r.codigo, ⟨r, ⟨hr, hx⟩, rfl⟩, by rw [hx]⟩
    · rintro ⟨c, ⟨r, ⟨hr, ht⟩, rfl⟩, he⟩
      obtain ⟨rfl, rfl⟩ : r.codigo = pc ∧ x = pt := by
        constructor
        · exact congrArg Prod.fst he
        · exact congrArg Prod.snd he
      exact ⟨⟨r, hr, by rw [ht]⟩, ht.symm ▸ rfl⟩
  rw [himg, Finset.card_image_of_injective _
    (fun a b hab => congrArg Prod.fst hab)]

/-- C3: each of the three national KPI counts equals the number of
distinct eventCode values among the filtered rows whose normalized
severity equals that bucket; rows with any other severity are counted in
none of the three buckets. -/
theorem C3_national_counts (rows : List NRow) (fs : FilterSpec) :
    (dashboard rows fs).countAviso =
      (dedupFirst (((applyFilters rows fs).filter
        (fun r => r.tipo = "Aviso")).map (fun r => r.codigo))).length
    ∧ (dashboard rows fs).countAlerta =
      (dedupFirst (((applyFilters rows fs).filter
        (fun r => r.tipo = "Alerta")).map (fun r => r.codigo))).length
    ∧ (dashboard rows fs).countAlarma =
      (dedupFirst (((applyFilters rows fs).filter
        (fun r => r.tipo = "Alarma")).map (fun r => r.codigo))).length := by
  refine ⟨?_, ?_, ?_⟩ <;>
    (show count_sev (applyFilters rows fs) _ = _
     rw [count_sev_card, distinct_codes_card])

/-- Counterexample for C4: when one eventCode appears with two different
severities the code counts it once in each bucket, so the sum of the three
national counts (here 2) exceeds the number of distinct eventCode values
(here 1), refuting the claimed inequality for arbitrary row sets. -/
theorem C4_counterexample :
    ¬ (count_sev [⟨"A", "Aviso", none, 0, none⟩,
          ⟨"A", "Alerta", none, 0, none⟩] "Aviso"
        + count_sev [⟨"A", "Aviso", none, 0, none⟩,
            ⟨"A", "Alerta", none, 0, none⟩] "Alerta"
        + count_sev [⟨"A", "Aviso", none, 0, none⟩,
            ⟨"A", "Alerta", none, 0, none⟩] "Alarma"
        ≤ (dedupFirst (([⟨"A", "Aviso", none, 0, none⟩,
            ⟨"A", "Alerta", none, 0, none⟩] : List NRow).map
              (fun r => r.codigo))).length) := by
  decide

theorem pairs_card_eq_codes_card (rows : List NRow)
    (hfd : ∀ r1 ∈ rows, ∀ r2 ∈ rows, r1.codigo = r2.codigo →
      r1.tipo = r2.tipo) :
    (rows.map fun r => (r.codigo, r.tipo)).toFinset.card
      = (rows.map fun r => r.codigo).toFinset.card := by
  have himg : (rows.map fun r => r.codigo).toFinset =
      (rows.map fun r => (r.codigo, r.tipo)).toFinset.image Prod.fst := by
    ext c
    simp only [List.mem_toFinset, List.mem_map, Finset.mem_image]
    constructor
    · rintro ⟨r, hr, rfl⟩
      exact ⟨(r.codigo, r.tipo), ⟨r, hr, rfl⟩, rfl⟩
    · rintro ⟨p, ⟨r, hr, rfl⟩, rfl⟩
      exact ⟨r, hr, rfl⟩
  rw [himg, Finset.card_image_of_injOn ?_]
  intro p hp q hq hpq
  simp only [Finset.coe_sort_coe, List.mem_toFinset, List.mem_map,
    Finset.mem_coe] at hp hq
  obtain ⟨r1, hr1, rfl⟩ := hp
  obtain ⟨r2, hr2, rfl⟩ := hq
  have ht := hfd r1 hr1 r2 hr2 hpq
  simp only [Prod.mk.injEq]
  exact ⟨hpq, ht⟩

theorem mem_pairs_iff (rows : List NRow) (p : String × String) :
    p ∈ (rows.map fun r => (r.codigo, r.tipo)).toFinset ↔
      ∃ r ∈ rows, (r.codigo, r.tipo) = p := by
  simp [List.mem_toFinset, List.mem_map]

/-- C4 (amended): provided each eventCode carries a single severity within
the filtered row set, the sum of the three national counts is at most the
number of distinct eventCode values, with equality exactly when every
row's severity is one of the three recognized ones. -/
theorem C4_sum_le_total (rows : List NRow)
    (hfd : ∀ r1 ∈ rows, ∀ r2 ∈ rows, r1.codigo = r2.codigo →
      r1.tipo = r2.tipo) :
    count_sev rows "Aviso" + count_sev rows "Alerta" + count_sev rows "Alarma"
      ≤ (dedupFirst (rows.map fun r => r.codigo)).length
    ∧ (count_sev rows "Aviso" + count_sev rows "Alerta" +
        count_sev rows "Alarma"
        = (dedupFirst (rows.map fun r => r.codigo)).length
       ↔ ∀ r ∈ rows, r.tipo = "Aviso" ∨ r.tipo = "Alerta" ∨
          r.tipo = "Alarma") := by
  have e1 := count_sev_card rows "Aviso"
  have e2 := count_sev_card rows "Alerta"
  have e3 := count_sev_card rows "Alarma"
  have etot : (dedupFirst (rows.map fun r => r.codigo)).length =
      (rows.map fun r => (r.codigo, r.tipo)).toFinset.card := by
    rw [dedupFirst_length, pairs_card_eq_codes_card rows hfd]
  have h1 := Finset.filter_card_add_filter_neg_card_eq_card
    (s := (rows.map fun r => (r.codigo, r.tipo)).toFinset)
    (fun p => p.2 = "Aviso")
  have h2 := Finset.filter_card_add_filter_neg_card_eq_card
    (s := ((rows.map fun r => (r.codigo, r.tipo)).toFinset.filter
      (fun p => ¬ p.2 = "Aviso")))
    (fun p => p.2 = "Alerta")
  have h3 := Finset.filter_card_add_filter_neg_card_eq_card
    (s := (((rows.map fun r => (r.codigo, r.tipo)).toFinset.filter
      (fun p => ¬ p.2 = "Aviso")).filter (fun p => ¬ p.2 = "Alerta")))
    (fun p => p.2 = "Alarma")
  have a2 : ((rows.map fun r => (r.codigo, r.tipo)).toFinset.filter
      (fun p => ¬ p.2 = "Aviso")).filter (fun p => p.2 = "Alerta")
      = (rows.map fun r => (r.codigo, r.tipo)).toFinset.filter
        (fun p => p.2 = "Alerta") := by
    rw [Finset.filter_filter]
    apply Finset.filter_congr
    intro p _
    constructor
    · rintro ⟨_, hx⟩
      exact hx
    · intro hx
      refine ⟨?_, hx⟩
      rw [hx]
      decide
  have a3 : (((rows.map fun r => (r.codigo, r.tipo)).toFinset.filter
      (fun p => ¬ p.2 = "Aviso")).filter (fun p => ¬ p.2 = "Alerta")).filter
        (fun p => p.2 = "Alarma")
      = (rows.map fun r => (r.codigo, r.tipo)).toFinset.filter
        (fun p => p.2 = "Alarma") := by
    rw [Finset.filter_filter, Finset.filter_filter]
    apply Finset.filter_congr
    intro p _
    constructor
    · rintro ⟨_, _, hx⟩
      exact hx
    · intro hx
      refine ⟨?_, ?_, hx⟩ <;> rw [hx] <;> decide
  rw [a2] at h2
  rw [a3] at h3
  have hrest : ((((rows.map fun r => (r.codigo, r.tipo)).toFinset.filter
      (fun p => ¬ p.2 = "Aviso")).filter (fun p => ¬ p.2 = "Alerta")).filter
        (fun p => ¬ p.2 = "Alarma")).card = 0
      ↔ ∀ r ∈ rows, r.tipo = "Aviso" ∨ r.tipo = "Alerta" ∨
          r.tipo = "Alarma" := by
    rw [Finset.card_eq_zero, Finset.filter_eq_empty_iff]
    constructor
    · intro hall r hr
      by_contra hcon
      push_neg at hcon
      obtain ⟨n1, n2, n3⟩ := hcon
      have hp : (r.codigo, r.tipo) ∈
          (((rows.map fun r => (r.codigo, r.tipo)).toFinset.filter
            (fun p => ¬ p.2 = "Aviso")).filter (fun p => ¬ p.2 = "Alerta")) := by
        rw [Finset.mem_filter, Finset.mem_filter]
        exact ⟨⟨(mem_pairs_iff rows _).mpr ⟨r, hr, rfl⟩, n1⟩, n2⟩
      exact hall hp n3
    · intro hall p hp
      rw [Finset.mem_filter, Finset.mem_filter] at hp
      obtain ⟨⟨hp0, n1⟩, n2⟩ := hp
      obtain ⟨r, hr, rfl⟩ := (mem_pairs_iff rows _).mp hp0
      rcases hall r hr with hx | hx | hx
      · exact absurd hx n1
      · exact absurd hx n2
      · intro hcon
        exact hcon hx
  rw [e1, e2, e3, etot, ← hrest]
  constructor
  · omega
  · omega

/-- Witness for C4 (amended): the inequality and the equality criterion at
a concrete row set where one severity is unrecognized. -/
theorem C4_sum_le_total_witness :
    count_sev [⟨"A", "Aviso", none, 0, none⟩, ⟨"B", "Nan", none, 0, none⟩]
        "Aviso"
      + count_sev [⟨"A", "Aviso", none, 0, none⟩, ⟨"B", "Nan", none, 0, none⟩]
          "Alerta"
      + count_sev [⟨"A", "Aviso", none, 0, none⟩, ⟨"B", "Nan", none, 0, none⟩]
          "Alarma"
      ≤ (dedupFirst (([⟨"A", "Aviso", none, 0, none⟩,
          ⟨"B", "Nan", none, 0, none⟩] : List NRow).map
            (fun r => r.codigo))).length :=
  (C4_sum_le_total [⟨"A", "Aviso", none, 0, none⟩,
    ⟨"B", "Nan", none, 0, none⟩] (by decide)).1

/-- C7: with an active range the filter keeps exactly the rows whose
emission date lies between the two bounds inclusively; rows with the
unparseable sentinel are always dropped under an active range, and with no
active range the rows pass through unchanged. -/
theorem C7_date_range_filter (rows : List NRow) (d1 d2 : PyDate) :
    (∀ r, r ∈ dateRangeFilter rows (some (d1, d2)) ↔
      r ∈ rows ∧ ∃ dt, r.emision = some dt ∧
        dateLe d1 (dateOf dt) = true ∧ dateLe (dateOf dt) d2 = true)
    ∧ (∀ r ∈ rows, r.emision = none →
        r ∉ dateRangeFilter rows (some (d1, d2)))
    ∧ dateRangeFilter rows none = rows := by
  refine ⟨?_, ?_, rfl⟩
  · intro r
    simp only [dateRangeFilter, List.mem_filter]
    constructor
    · rintro ⟨hr, hb⟩
      refine ⟨hr, ?_⟩
      cases he : r.emision with
      | none => rw [he] at hb; simp at hb
      | some dt =>
        rw [he] at hb
        simp only [Bool.and_eq_true] at hb
        exact ⟨dt, rfl, hb.1, hb.2⟩
    · rintro ⟨hr, dt, he, hle1, hle2⟩
      refine ⟨hr, ?_⟩
      rw [he]
      simp [hle1, hle2]
  · intro r _ he hmem
    simp only [dateRangeFilter, List.mem_filter, he] at hmem
    simp at hmem

/-- Witness for C7: a row with an unparseable emission is dropped by an
active range, instantiated concretely (the exclusion conjunct has
hypotheses). -/
theorem C7_date_range_filter_witness :
    (⟨"A", "Aviso", none, 0, none⟩ : NRow) ∉
      dateRangeFilter [⟨"A", "Aviso", none, 0, none⟩]
        (some (⟨2025, 1, 1⟩, ⟨2025, 12, 31⟩)) :=
  (C7_date_range_filter [⟨"A", "Aviso", none, 0, none⟩]
    ⟨2025, 1, 1⟩ ⟨2025, 12, 31⟩).2.1 _ (by simp) rfl

theorem idxLastRow_none_iff (rows : List NRow) :
    idxLastRow rows = none ↔ ∀ r ∈ rows, r.emision = none := by
  induction rows with
  | nil => simp [idxLastRow]
  | cons r rest ih =>
    cases he : r.emision with
    | none =>
      rw [idxLastRow, he, idxCons, ih]
      constructor
      · intro hall r2 hm
        rcases List.mem_cons.mp hm with rfl | hm
        · exact he
        · exact hall r2 hm
      · intro hall r2 hm
        exact hall r2 (List.mem_cons_of_mem _ hm)
    | some dt =>
      rw [idxLastRow, he, idxCons]
      constructor
      · intro hcon
        exfalso
        cases hrest : idxLastRow rest with
        | none => rw [hrest, idxStep] at hcon; cases hcon
        | some b =>
          rw [hrest, idxStep] at hcon
          cases hb : b.emision with
          | none => rw [hb, idxPick] at hcon; cases hcon
          | some bdt =>
            rw [hb, idxPick] at hcon
            by_cases hlt : dtLtB dt bdt = true
            · rw [if_pos hlt] at hcon; cases hcon
            · rw [if_neg hlt] at hcon; cases hcon
      · intro hall
        exact absurd he (by simp [hall r (List.mem_cons_self _ _)])

theorem idxLastRow_spec (rows : List NRow) :
    ∀ r, idxLastRow rows = some r → r ∈ rows ∧ ∃ dt, r.emision = some dt ∧
      ∀ r2 ∈ rows, ∀ dt2, r2.emision = some dt2 → dtLeB dt2 dt = true := by
  induction rows with
  | nil => intro r h; cases h
  | cons a rest ih =>
    intro r h
    cases he : a.emision with
    | none =>
      rw [idxLastRow, he, idxCons] at h
      obtain ⟨hmem, dt, hdt, hbound⟩ := ih r h
      refine ⟨List.mem_cons_of_mem _ hmem, dt, hdt, ?_⟩
      intro r2 hr2 dt2 hdt2
      rcases List.mem_cons.mp hr2 with rfl | hr2
      · rw [he] at hdt2; cases hdt2
      · exact hbound r2 hr2 dt2 hdt2
    | some dt =>
      rw [idxLastRow, he, idxCons] at h
      cases hrest : idxLastRow rest with
      | none =>
        rw [hrest, idxStep] at h
        cases h
        refine ⟨List.mem_cons_self _ _, dt, he, ?_⟩
        intro r2 hr2 dt2 hdt2
        rcases List.mem_cons.mp hr2 with rfl | hr2
        · rw [he] at hdt2
          cases hdt2
          exact dtLeB_refl dt
        · exact absurd hdt2 (by
            simp [(idxLastRow_none_iff rest).mp hrest r2 hr2])
      | some b =>
        rw [hrest, idxStep] at h
        obtain ⟨hbmem, bdt, hbdt, hbound⟩ := ih b hrest
        rw [hbdt, idxPick] at h
        by_cases hlt : dtLtB dt bdt = true
        · rw [if_pos hlt] at h
          cases h
          refine ⟨List.mem_cons_of_mem _ hbmem, bdt, hbdt, ?_⟩
          intro r2 hr2 dt2 hdt2
          rcases List.mem_cons.mp hr2 with rfl | hr2
          · rw [he] at hdt2
            cases hdt2
            exact dtLeB_of_dtLtB hlt
          · exact hbound r2 hr2 dt2 hdt2
        · rw [if_neg hlt] at h
          cases h
          refine ⟨List.mem_cons_self _ _, dt, he, ?_⟩
          intro r2 hr2 dt2 hdt2
          rcases List.mem_cons.mp hr2 with rfl | hr2
          · rw [he] at hdt2
            cases hdt2
            exact dtLeB_refl dt
          · have h1 := hbound r2 hr2 dt2 hdt2
            have h2 : dtLeB bdt dt = true :=
              dtLeB_of_not_dtLtB (Bool.not_eq_true _ ▸ hlt)
            exact dtLeB_trans h1 h2

/-- C8: the most-recent emission shown by the dashboard is computed over
the full unfiltered row set, identical under every filter specification;
it is the none-available state exactly when no row has a parsed emission,
and otherwise a row of the set carrying a maximal parsed emission. -/
theorem C8_most_recent (rows : List NRow) (fs fs2 : FilterSpec) :
    (dashboard rows fs).ultima = idxLastRow rows
    ∧ (dashboard rows fs).ultima = (dashboard rows fs2).ultima
    ∧ (idxLastRow rows = none ↔ ∀ r ∈ rows, r.emision = none)
    ∧ (∀ r, idxLastRow rows = some r → r ∈ rows ∧ ∃ dt,
        r.emision = some dt ∧
        ∀ r2 ∈ rows, ∀ dt2, r2.emision = some dt2 → dtLeB dt2 dt = true) :=
  ⟨rfl, rfl, idxLastRow_none_iff rows, idxLastRow_spec rows⟩

/-- Witness for C8: the maximal-row conjunct applied at a concrete set
where the second row has the latest emission. -/
theorem C8_most_recent_witness :
    (⟨"B", "Alerta", none, 0, some ⟨2025, 12, 1, 8, 0⟩⟩ : NRow) ∈
      ([⟨"A", "Aviso", none, 0, some ⟨2025, 11, 28, 13, 32⟩⟩,
        ⟨"B", "Alerta", none, 0, some ⟨2025, 12, 1, 8, 0⟩⟩] : List NRow)
    ∧ ∃ dt, (⟨"B", "Alerta", none, 0, some ⟨2025, 12, 1, 8, 0⟩⟩ : NRow).emision
        = some dt ∧
      ∀ r2 ∈ ([⟨"A", "Aviso", none, 0, some ⟨2025, 11, 28, 13, 32⟩⟩,
          ⟨"B", "Alerta", none, 0, some ⟨2025, 12, 1, 8, 0⟩⟩] : List NRow),
        ∀ dt2, r2.emision = some dt2 → dtLeB dt2 dt = true :=
  (C8_most_recent [⟨"A", "Aviso", none, 0, some ⟨2025, 11, 28, 13, 32⟩⟩,
      ⟨"B", "Alerta", none, 0, some ⟨2025, 12, 1, 8, 0⟩⟩]
    ⟨[], none, none⟩ ⟨[], none, none⟩).2.2.2 _ (by decide)

/-! Helper lemmas: per-region aggregation. -/

theorem df_reg_eq (rows : List NRow) :
    df_reg rows = List.insertionSort ordenRel
      ((dedupFirst ((dedupFirst (rows.filterMap
          (fun r => r.reg.map (fun g => (g, r.orden, r.codigo))))).map
        (fun t => (t.1, t.2.1)))).map (fun k =>
          (k.1, k.2, (dedupFirst (((dedupFirst (rows.filterMap
              (fun r => r.reg.map (fun g => (g, r.orden, r.codigo))))).filter
            (fun t => t.1 = k.1 ∧ t.2.1 = k.2)).map
              (fun t => t.2.2))).length))) := rfl

theorem mem_proj {rows : List NRow} {t : String × Int × String} :
    t ∈ rows.filterMap (fun r => r.reg.map (fun g => (g, r.orden, r.codigo))) ↔
      ∃ r ∈ rows, r.reg = some t.1 ∧ r.orden = t.2.1 ∧ r.codigo = t.2.2 := by
  obtain ⟨tg, to2, tc⟩ := t
  rw [List.mem_filterMap]
  constructor
  · rintro ⟨r, hr, he⟩
    obtain ⟨g, hg, he2⟩ := Option.map_eq_some'.mp he
    obtain ⟨rfl, rfl, rfl⟩ : g = tg ∧ r.orden = to2 ∧ r.codigo = tc := by
      refine ⟨congrArg (fun p => p.1) he2, congrArg (fun p => p.2.1) he2,
        congrArg (fun p => p.2.2) he2⟩
    exact ⟨r, hr, hg, rfl, rfl⟩
  · rintro ⟨r, hr, hg, ho, hc⟩
    refine ⟨r, hr, ?_⟩
    rw [hg, Option.map_some']
    simp only at ho hc ⊢
    rw [ho, hc]

theorem mem_keys (rows : List NRow) (g : String) (o : Int) :
    (g, o) ∈ dedupFirst ((dedupFirst (rows.filterMap
        (fun r => r.reg.map (fun g2 => (g2, r.orden, r.codigo))))).map
      (fun t => (t.1, t.2.1)))
      ↔ ∃ r ∈ rows, r.reg = some g ∧ r.orden = o := by
  simp only [mem_dedupFirst, List.mem_map]
  constructor
  · rintro ⟨t, ht, he⟩
    obtain ⟨r, hr, hreg, hord, _⟩ := mem_proj.mp ht
    have h1 : t.1 = g := congrArg Prod.fst he
    have h2 : t.2.1 = o := congrArg Prod.snd he
    exact ⟨r, hr, by rw [hreg, h1], by rw [hord, h2]⟩
  · rintro ⟨r, hr, hreg, hord⟩
    refine ⟨(g, r.orden, r.codigo), mem_proj.mpr ⟨r, hr, hreg, rfl, rfl⟩, ?_⟩
    simp only
    rw [hord]

theorem bucket_count (rows : List NRow) (g : String) (o : Int)
    (hfd : ∀ g2 : String, ∀ r1 ∈ rows, ∀ r2 ∈ rows, r1.reg = some g2 →
      r2.reg = some g2 → r1.orden = r2.orden)
    (hkey : ∃ r ∈ rows, r.reg = some g ∧ r.orden = o) :
    (dedupFirst (((dedupFirst (rows.filterMap
        (fun r => r.reg.map (fun g2 => (g2, r.orden, r.codigo))))).filter
      (fun t => t.1 = g ∧ t.2.1 = o)).map (fun t => t.2.2))).length
      = (dedupFirst ((rows.filter (fun r => r.reg = some g)).map
          (fun r => r.codigo))).length := by
  obtain ⟨r0, hr0, hreg0, hord0⟩ := hkey
  rw [dedupFirst_length, dedupFirst_length]
  congr 1
  ext c
  simp only [List.mem_toFinset, List.mem_map, List.mem_filter,
    mem_dedupFirst, mem_proj, decide_eq_true_eq]
  constructor
  · rintro ⟨t, ⟨⟨r, hr, hreg, hord, hcod⟩, hg, ho⟩, hc⟩
    exact ⟨r, ⟨hr, by rw [hreg, hg]⟩, by rw [hcod, hc]⟩
  · rintro ⟨r, ⟨hr, hreg⟩, hcod⟩
    have hord : r.orden = o := by
      rw [hfd g r hr r0 hr0 hreg hreg0, hord0]
    exact ⟨(g, r.orden, r.codigo), ⟨⟨r, hr, hreg, rfl, rfl⟩, rfl, hord⟩, hcod⟩

/-- C6: under the data-model invariant that a region determines its
displayOrder, the per-region aggregation is sorted by displayOrder
ascending (never alphabetically), contains exactly one bucket per region
occurring in the rows, and each bucket counts the distinct eventCode
values of its region after (eventCode, region) deduplication. -/
theorem C6_region_aggregation (rows : List NRow)
    (hfd : ∀ g : String, ∀ r1 ∈ rows, ∀ r2 ∈ rows, r1.reg = some g →
      r2.reg = some g → r1.orden = r2.orden) :
    List.Sorted ordenRel (df_reg rows)
    ∧ (∀ g o n, (g, o, n) ∈ df_reg rows ↔
        ((∃ r ∈ rows, r.reg = some g ∧ r.orden = o)
         ∧ n = (dedupFirst ((rows.filter (fun r => r.reg = some g)).map
              (fun r => r.codigo))).length))
    ∧ ((df_reg rows).map (fun t => t.1)).Nodup := by
  refine ⟨?_, ?_, ?_⟩
  · rw [df_reg_eq]
    exact List.sorted_insertionSort ordenRel _
  · intro g o n
    rw [df_reg_eq, List.mem_insertionSort, List.mem_map]
    constructor
    · rintro ⟨k, hk, he⟩
      obtain ⟨kg, ko⟩ := k
      have hg : kg = g := congrArg (fun p => p.1) he
      have ho : ko = o := congrArg (fun p => p.2.1) he
      have hn := congrArg (fun p => p.2.2) he
      simp only at hn
      subst hg
      subst ho
      have hkey := (mem_keys rows kg ko).mp hk
      exact ⟨hkey, by rw [← hn, bucket_count rows kg ko hfd hkey]⟩
    · rintro ⟨hkey, hn⟩
      refine ⟨(g, o), (mem_keys rows g o).mpr hkey, ?_⟩
      simp only
      rw [bucket_count rows g o hfd hkey, ← hn]
  · rw [df_reg_eq]
    have hperm := (List.perm_insertionSort ordenRel
      ((dedupFirst ((dedupFirst (rows.filterMap
          (fun r => r.reg.map (fun g => (g, r.orden, r.codigo))))).map
        (fun t => (t.1, t.2.1)))).map (fun k =>
          (k.1, k.2, (dedupFirst (((dedupFirst (rows.filterMap
              (fun r => r.reg.map (fun g => (g, r.orden, r.codigo))))).filter
            (fun t => t.1 = k.1 ∧ t.2.1 = k.2)).map
              (fun t => t.2.2))).length)))).map (fun t => t.1)
    rw [hperm.nodup_iff]
    rw [List.map_map]
    have hinj : ∀ x ∈ dedupFirst ((dedupFirst (rows.filterMap
        (fun r => r.reg.map (fun g => (g, r.orden, r.codigo))))).map
          (fun t => (t.1, t.2.1))),
        ∀ y ∈ dedupFirst ((dedupFirst (rows.filterMap
          (fun r => r.reg.map (fun g => (g, r.orden, r.codigo))))).map
            (fun t => (t.1, t.2.1))),
        x.1 = y.1 → x = y := by
      intro x hx y hy hxy
      obtain ⟨xg, xo⟩ := x
      obtain ⟨yg, yo⟩ := y
      simp only at hxy
      subst hxy
      obtain ⟨r1, hr1, hreg1, hord1⟩ := (mem_keys rows xg xo).mp hx
      obtain ⟨r2, hr2, hreg2, hord2⟩ := (mem_keys rows xg yo).mp hy
      have : r1.orden = r2.orden := hfd xg r1 hr1 r2 hr2 hreg1 hreg2
      rw [← hord1, ← hord2, this]
    exact (nodup_dedupFirst _).map_on hinj

/-- Witness for C6: the aggregation at a concrete row set whose regions
carry displayOrder 3, 1, 2, instantiating the theorem. -/
theorem C6_region_aggregation_witness :
    List.Sorted ordenRel (df_reg
      [⟨"c1", "Aviso", some "RegB", 3, none⟩,
       ⟨"c2", "Aviso", some "RegC", 1, none⟩,
       ⟨"c3", "Aviso", some "RegA", 2, none⟩])
    ∧ (∀ g o n, (g, o, n) ∈ df_reg
        [⟨"c1", "Aviso", some "RegB", 3, none⟩,
         ⟨"c2", "Aviso", some "RegC", 1, none⟩,
         ⟨"c3", "Aviso", some "RegA", 2, none⟩] ↔
        ((∃ r ∈ ([⟨"c1", "Aviso", some "RegB", 3, none⟩,
            ⟨"c2", "Aviso", some "RegC", 1, none⟩,
            ⟨"c3", "Aviso", some "RegA", 2, none⟩] : List NRow),
              r.reg = some g ∧ r.orden = o)
         ∧ n = (dedupFirst ((([⟨"c1", "Aviso", some "RegB", 3, none⟩,
            ⟨"c2", "Aviso", some "RegC", 1, none⟩,
            ⟨"c3", "Aviso", some "RegA", 2, none⟩] : List NRow).filter
              (fun r => r.reg = some g)).map
                (fun r => r.codigo))).length))
    ∧ ((df_reg [⟨"c1", "Aviso", some "RegB", 3, none⟩,
        ⟨"c2", "Aviso", some "RegC", 1, none⟩,
        ⟨"c3", "Aviso", some "RegA", 2, none⟩]).map (fun t => t.1)).Nodup :=
  C6_region_aggregation
    [⟨"c1", "Aviso", some "RegB", 3, none⟩,
     ⟨"c2", "Aviso", some "RegC", 1, none⟩,
     ⟨"c3", "Aviso", some "RegA", 2, none⟩]
    (by
      intro g r1 h1 r2 h2 hg1 hg2
      fin_cases h1 <;> fin_cases h2 <;> simp_all <;>
        exact absurd (hg1.trans hg2.symm) (by decide))

/-- C10: a row with a missing region is excluded from the per-region
aggregation entirely, while its (eventCode, severity) pair still feeds the
national severity counts. -/
theorem C10_missing_region (r : NRow) (rows : List NRow) (h : r.reg = none) :
    df_reg (r :: rows) = df_reg rows ∧
    (r.codigo, r.tipo) ∈ eventos_nacionales (r :: rows) := by
  constructor
  · simp [df_reg, List.filterMap_cons, h]
  · exact mem_dedupFirst.mpr (by simp)

/-- Witness for C10 at a concrete row with a missing region. -/
theorem C10_missing_region_witness :
    df_reg [⟨"A", "Aviso", none, 7, some ⟨2025, 11, 28, 13, 32⟩⟩,
        ⟨"B", "Alerta", some "Valparaíso", 5, none⟩]
      = df_reg [⟨"B", "Alerta", some "Valparaíso", 5, none⟩]
    ∧ ("A", "Aviso") ∈ eventos_nacionales
        [⟨"A", "Aviso", none, 7, some ⟨2025, 11, 28, 13, 32⟩⟩,
         ⟨"B", "Alerta", some "Valparaíso", 5, none⟩] :=
  C10_missing_region ⟨"A", "Aviso", none, 7, some ⟨2025, 11, 28, 13, 32⟩⟩
    [⟨"B", "Alerta", some "Valparaíso", 5, none⟩] rfl

end DMC
